import Mathlib

/-!
Verification of the IDX decoder and per-label aggregator of
`handwriting-detect-rs` (src/main.rs), via a shallow embedding.

Modelling conventions:
* A file is a `List Nat` of its bytes (real files have entries < 256;
  nothing below depends on that bound).
* Rust `u32` arithmetic wraps: every `u32` multiplication/addition from the
  source is written with an explicit `% 4294967296` (`2^32`).  `usize` is
  64-bit and the sizes arising here never reach `2^64`, so `usize`
  arithmetic is modelled exactly on `Nat`.
* Fallible steps (`read_exact`, the `assert!` in `Image::new`, a division
  by zero) are modelled with `Option`/`Except`.
-/

/-- `Image<T>` of src/main.rs: width, height and the row-major data vector. -/
structure Image (T : Type) where
  width : Nat
  height : Nat
  data : List T
deriving Repr, DecidableEq

/-- `Image::<T>::new(width, height, data)`: computes
`size = (width * height) as usize` (a `u32` product, hence `% 2^32`) and
asserts `size == data.len()`.  The assertion failure (a panic) is `none`. -/
def ImageNew (T : Type) (width height : Nat) (data : List T) : Option (Image T) :=
  let size := width * height % 4294967296
  if size = data.length then some ⟨width, height, data⟩ else none

/-- The error kinds of the decoder (§7 of the spec): the `io::Error`s built
by `maybe_report_magic_mismatch` / `maybe_report_unexpected_filesize`, the
`read_exact` failure, and the `assert!` panic in `Image::new`. -/
inductive DecodeError where
  | truncatedInput
  | magicMismatch (actual expected : Nat)
  | sizeMismatch (expected actual : Nat)
  | assertFailed
deriving Repr, DecidableEq

/-- `read_be_u32`: read 4 bytes at `pos` as a big-endian u32;
`read_exact` fails when fewer than 4 bytes remain. -/
def readBeU32 (bytes : List Nat) (pos : Nat) : Option Nat :=
  if pos + 4 ≤ bytes.length then
    some (bytes.getD pos 0 * 16777216 + bytes.getD (pos + 1) 0 * 65536 +
          bytes.getD (pos + 2) 0 * 256 + bytes.getD (pos + 3) 0)
  else none

/-- `read_labels` (file already opened; the byte list is the whole file, and
`file.metadata().len()` is `bytes.length`).  Magic `0x801`, then `count`,
then the file-size check against `8 + count`, then `count` raw bytes. -/
def decodeLabels (bytes : List Nat) : Except DecodeError (List Nat) :=
  match readBeU32 bytes 0 with
  | none => .error .truncatedInput
  | some magic =>
    if magic ≠ 0x801 then .error (.magicMismatch magic 0x801)
    else
      match readBeU32 bytes 4 with
      | none => .error .truncatedInput
      | some count =>
        if bytes.length ≠ 8 + count then .error (.sizeMismatch (8 + count) bytes.length)
        else if 8 + count ≤ bytes.length then .ok ((bytes.drop 8).take count)
        else .error .truncatedInput

/-- The per-image loop of `read_images`: for each of `n` images read
`imageSize` bytes (`read_exact`, failing when fewer remain) and construct
`MnistImage::new(columns, rows, data)` — width = columns, height = rows. -/
def readImageLoop (bytes : List Nat) (cols rows imageSize pos : Nat) :
    Nat → Except DecodeError (List (Image Nat))
  | 0 => .ok []
  | n + 1 =>
    if pos + imageSize ≤ bytes.length then
      match ImageNew Nat cols rows ((bytes.drop pos).take imageSize) with
      | none => .error .assertFailed
      | some img =>
        match readImageLoop bytes cols rows imageSize (pos + imageSize) n with
        | .error e => .error e
        | .ok rest => .ok (img :: rest)
    else .error .truncatedInput

/-- `read_images`: magic `0x803`, then `count`, `rows`, `columns` (in that
order), the file-size check against
`16 + count * ((rows * columns) as u32 product)`, then the image loop with
`image_size = (columns * rows) as usize` starting at offset 16. -/
def decodeImages (bytes : List Nat) : Except DecodeError (List (Image Nat)) :=
  match readBeU32 bytes 0 with
  | none => .error .truncatedInput
  | some magic =>
    if magic ≠ 0x803 then .error (.magicMismatch magic 0x803)
    else
      match readBeU32 bytes 4 with
      | none => .error .truncatedInput
      | some count =>
        match readBeU32 bytes 8 with
        | none => .error .truncatedInput
        | some rows =>
          match readBeU32 bytes 12 with
          | none => .error .truncatedInput
          | some cols =>
            let expected := 16 + count * (rows * cols % 4294967296)
            if bytes.length ≠ expected then .error (.sizeMismatch expected bytes.length)
            else readImageLoop bytes cols rows (cols * rows % 4294967296) 16 count

/-- The `max_value` computation of `main`: `max_value = 0` then
`max_value = max(max_value, *val)` over the data. -/
def maxAccum (data : List Nat) : Nat :=
  data.foldl Nat.max 0

/-- The conversion closure `|value| (255 * value / max_value) as u8` passed
to `print_with_conversion`: a `u32` product (`% 2^32`), a `u32` division —
which panics (`none`) when `max_value = 0` — and the `as u8` cast (`% 256`). -/
def rescale (value maxValue : Nat) : Option Nat :=
  if maxValue = 0 then none
  else some (255 * value % 4294967296 / maxValue % 256)

/-- The inner summation loop of `main`:
`for pixel in 0..image.data.len() { s.data[pixel] += image.data[pixel] }`,
with the `u32` addition wrapping.  (The Rust indexing `s.data[pixel]`
panics when `pixel` is out of range of `s.data`; `List.set` is a no-op
there instead — every use below has `s` and `t` of equal length.) -/
def sumInto (s t : List Nat) : List Nat :=
  (List.range t.length).foldl
    (fun d p => d.set p ((d.getD p 0 + t.getD p 0) % 4294967296)) s

/-- `BTreeMap::insert` for a key not yet present, on the sorted-by-key
association-list model of `BTreeMap<u8, SumImage>`. -/
def aggInsert (k : Nat) (v : Image Nat) :
    List (Nat × Image Nat) → List (Nat × Image Nat)
  | [] => [(k, v)]
  | (k', v') :: rest =>
    if k < k' then (k, v) :: (k', v') :: rest else (k', v') :: aggInsert k v rest

/-- `BTreeMap::contains_key` on the association-list model. -/
def aggContains (k : Nat) (m : List (Nat × Image Nat)) : Bool :=
  m.any (fun e => e.1 == k)

/-- `BTreeMap::get_mut` followed by mutating the found value. -/
def aggUpdate (k : Nat) (f : Image Nat → Image Nat) :
    List (Nat × Image Nat) → List (Nat × Image Nat)
  | [] => []
  | (k', v') :: rest =>
    if k' = k then (k', f v') :: rest else (k', v') :: aggUpdate k f rest

/-- One iteration of the aggregation loop of `main` on the pair
`(label, image)`: insert a zero accumulator
`SumImage::new(image.width, image.height, vec![0; image.data.len()])` when
the label is new (the `new` may assert-fail), then add the image into the
accumulator. -/
def aggStep (m : List (Nat × Image Nat)) (li : Nat × Image Nat) :
    Option (List (Nat × Image Nat)) :=
  let withKey :=
    if aggContains li.1 m then some m
    else (ImageNew Nat li.2.width li.2.height (List.replicate li.2.data.length 0)).map
      (fun z => aggInsert li.1 z m)
  withKey.map (aggUpdate li.1 (fun s => ⟨s.width, s.height, sumInto s.data li.2.data⟩))

/-- The whole aggregation loop of `main` over the index-aligned
label/image pairs, starting from the empty `BTreeMap`. -/
def aggregate (pairs : List (Nat × Image Nat)) : Option (List (Nat × Image Nat)) :=
  pairs.foldl (fun om li => om.bind (fun m => aggStep m li)) (some [])

/-- Errors surfaced by `main` (all become a nonzero process exit status). -/
inductive MainError where
  | usageError
  | decodeFailed (e : DecodeError)
  | countMismatch
  | aggPanic
deriving Repr, DecidableEq

/-- The control flow of `main`: `args` includes the program name, so the
check is `args.len() != 3`; `usage()` prints and returns an error before
any file is touched.  The two files enter only after the check, as the
byte lists `labelBytes` / `imageBytes`. -/
def mainModel (argv : List String) (labelBytes imageBytes : List Nat) :
    Except MainError (List (Nat × Image Nat)) :=
  if argv.length ≠ 3 then .error .usageError
  else
    match decodeLabels labelBytes with
    | .error e => .error (.decodeFailed e)
    | .ok labels =>
      match decodeImages imageBytes with
      | .error e => .error (.decodeFailed e)
      | .ok images =>
        if labels.length ≠ images.length then .error .countMismatch
        else
          match aggregate (labels.zip images) with
          | none => .error .aggPanic
          | some m => .ok m

/-- The pixel values, across `pairs`, of cell `p` of every image carrying
label `l` (the images summed into label `l`'s accumulator). -/
def matchedPixels (l p : Nat) (pairs : List (Nat × Image Nat)) : List Nat :=
  (pairs.filter (fun li => li.1 == l)).map (fun li => li.2.data.getD p 0)

/-- All images of a decoded image set share the decoder-produced shape:
width `w`, height `h`, and the (u32-product) data length. -/
def GoodImage (w h : Nat) (img : Image Nat) : Prop :=
  img.width = w ∧ img.height = h ∧ img.data.length = w * h % 4294967296

/-- Loop invariant of the aggregation: after processing `processed`, the
map `m` is sorted by label, holds exactly the labels seen so far, and each
accumulator cell is the (u32-wrapped) sum of the matching pixels so far. -/
def AggInv (w h : Nat) (processed m : List (Nat × Image Nat)) : Prop :=
  (m.map Prod.fst).Sorted (· < ·) ∧
  (∀ l, l ∈ m.map Prod.fst ↔ l ∈ processed.map Prod.fst) ∧
  (∀ e ∈ m, GoodImage w h e.2 ∧
    ∀ p, e.2.data.getD p 0 = (matchedPixels e.1 p processed).sum % 4294967296)

/-- An image file whose header declares `count = 1`,
`rows = columns = 65536`, followed by `2^32` pixel bytes: its length is
exactly `16 + count * rows * columns` in exact arithmetic. -/
def wrapImageFile : List Nat :=
  [0, 0, 8, 3, 0, 0, 0, 1, 0, 1, 0, 0, 0, 1, 0, 0] ++ List.replicate 4294967296 0

/-! ### Helper lemmas on the decoders -/

theorem getD_take_drop (l : List Nat) (p n k : Nat) (hk : k < n)
    (hlen : p + n ≤ l.length) :
    ((l.drop p).take n).getD k 0 = l.getD (p + k) 0 := by
  have hdl : (l.drop p).length = l.length - p := List.length_drop p l
  have hk1 : k < ((l.drop p).take n).length := by
    rw [List.length_take, hdl]
    omega
  have hk2 : k < (l.drop p).length := by omega
  have hk3 : p + k < l.length := by omega
  rw [List.getD_eq_getElem _ _ hk1, List.getD_eq_getElem _ _ hk3,
    List.getElem_take, List.getElem_drop]

theorem length_take_drop (l : List Nat) (p n : Nat) (hlen : p + n ≤ l.length) :
    ((l.drop p).take n).length = n := by
  rw [List.length_take, List.length_drop]
  omega

theorem readBeU32_append (l1 l2 : List Nat) (pos : Nat) (h : pos + 4 ≤ l1.length) :
    readBeU32 (l1 ++ l2) pos = readBeU32 l1 pos := by
  unfold readBeU32
  rw [if_pos (by rw [List.length_append]; omega), if_pos h]
  rw [List.getD_append _ _ _ _ (by omega), List.getD_append _ _ _ _ (by omega),
    List.getD_append _ _ _ _ (by omega), List.getD_append _ _ _ _ (by omega)]

theorem readBeU32_length {bytes : List Nat} {pos v : Nat}
    (h : readBeU32 bytes pos = some v) : pos + 4 ≤ bytes.length := by
  by_contra hn
  simp [readBeU32, hn] at h

theorem decodeLabels_sizeMismatch (bytes : List Nat) (count : Nat)
    (hm : readBeU32 bytes 0 = some 0x801)
    (hc : readBeU32 bytes 4 = some count)
    (hlen : bytes.length ≠ 8 + count) :
    decodeLabels bytes = .error (.sizeMismatch (8 + count) bytes.length) := by
  simp only [decodeLabels, hm, hc]
  rw [if_neg (by decide)]
  rw [if_pos hlen]

theorem decodeImages_sizeMismatch (bytes : List Nat) (count rows cols : Nat)
    (hm : readBeU32 bytes 0 = some 0x803)
    (hc : readBeU32 bytes 4 = some count)
    (hr : readBeU32 bytes 8 = some rows)
    (hl : readBeU32 bytes 12 = some cols)
    (hlen : bytes.length ≠ 16 + count * (rows * cols % 4294967296)) :
    decodeImages bytes =
      .error (.sizeMismatch (16 + count * (rows * cols % 4294967296)) bytes.length) := by
  simp only [decodeImages, hm, hc, hr, hl]
  rw [if_neg (by decide)]
  rw [if_pos hlen]

/-! ### C2: valid label files -/

/-- C2: for every valid label file (magic `0x00000801`, length exactly
`8 + count` for the header `count` field), `decode_labels` returns the
`count` raw bytes following the 8-byte header, in file order. -/
theorem C2_decodeLabels_valid (bytes : List Nat) (count : Nat)
    (hm : readBeU32 bytes 0 = some 0x801)
    (hc : readBeU32 bytes 4 = some count)
    (hlen : bytes.length = 8 + count) :
    decodeLabels bytes = .ok (bytes.drop 8) ∧ (bytes.drop 8).length = count := by
  have hdrop : (bytes.drop 8).length = count := by
    simp [List.length_drop, hlen]
  constructor
  · simp only [decodeLabels, hm, hc]
    rw [if_neg (by decide)]
    rw [if_neg (by omega)]
    rw [if_pos (by omega)]
    rw [← hdrop, List.take_length]
  · exact hdrop

/-- Witness for C2 on the spec's own example file
`0x00000801, 0x00000002, 0x05, 0x09`. -/
theorem C2_witness :
    decodeLabels [0, 0, 8, 1, 0, 0, 0, 2, 5, 9] = .ok [5, 9] ∧
    ([5, 9] : List Nat).length = 2 := by
  have h := C2_decodeLabels_valid [0, 0, 8, 1, 0, 0, 0, 2, 5, 9] 2
    (by decide) (by decide) (by decide)
  simpa using h

/-! ### C4: magic-number mismatches -/

/-- C4: whenever the first four bytes, read as a big-endian u32, differ
from the expected magic (`0x801` for labels, `0x803` for images), the
decode fails with `MagicMismatch` carrying both the actual and the
expected value, and returns no data. -/
theorem C4_magic_mismatch_rejected :
    (∀ (bytes : List Nat) (m : Nat), readBeU32 bytes 0 = some m → m ≠ 0x801 →
      decodeLabels bytes = .error (.magicMismatch m 0x801)) ∧
    (∀ (bytes : List Nat) (m : Nat), readBeU32 bytes 0 = some m → m ≠ 0x803 →
      decodeImages bytes = .error (.magicMismatch m 0x803)) := by
  constructor
  · intro bytes m hm hne
    simp only [decodeLabels, hm]
    rw [if_pos hne]
  · intro bytes m hm hne
    simp only [decodeImages, hm]
    rw [if_pos hne]

/-- Witness for C4: the label file from the spec's example with one magic
byte mutated (`0x02` in place of `0x01`) is rejected with both values
reported. -/
theorem C4_witness :
    decodeLabels [0, 0, 8, 2, 0, 0, 0, 2, 5, 9] =
      .error (.magicMismatch 0x802 0x801) ∧
    decodeImages [0, 0, 8, 1, 0, 0, 0, 2, 0, 0, 0, 2, 0, 0, 0, 2] =
      .error (.magicMismatch 0x801 0x803) :=
  ⟨C4_magic_mismatch_rejected.1 _ 0x802 (by decide) (by decide),
   C4_magic_mismatch_rejected.2 _ 0x801 (by decide) (by decide)⟩

/-! ### C8: wrong argument count -/

/-- C8: with an argument count other than 2 (`args.len() != 3` including
the program name), `main` fails with the usage error, whatever the two
files hold — in particular no file content is ever consulted. -/
theorem C8_usage_error (argv : List String) (labelBytes imageBytes : List Nat)
    (h : argv.length ≠ 3) :
    mainModel argv labelBytes imageBytes = .error .usageError := by
  simp only [mainModel, if_pos h]

/-- Witness for C8 at a one-argument invocation. -/
theorem C8_witness :
    mainModel ["handwriting-detect-rs", "labels-file"] [] [] = .error .usageError :=
  C8_usage_error ["handwriting-detect-rs", "labels-file"] [] [] (by decide)

/-! ### C3: file-size mismatches -/

/-- Counterexample to C3 as stated: the 8-byte label file with `count = 0`
is well-formed (it decodes to the empty label list), yet truncating it by
one byte fails with `TruncatedInput` — the header read itself runs short,
so the `SizeMismatch` check is never reached. -/
theorem C3_counterexample :
    decodeLabels [0, 0, 8, 1, 0, 0, 0, 0] = .ok [] ∧
    decodeLabels [0, 0, 8, 1, 0, 0, 0] = .error .truncatedInput := by
  constructor <;> rfl

/-- C3 (amended): when the whole header is present (every header read
succeeds) and the magic matches, a file whose length differs from the
header-computed size — `8 + count` for labels,
`16 + count * (rows * columns as a u32 product)` for images — fails with
`SizeMismatch` carrying expected and actual sizes, before any per-item
read (in particular, never with `TruncatedInput`). -/
theorem C3_size_mismatch :
    (∀ (bytes : List Nat) (count : Nat),
      readBeU32 bytes 0 = some 0x801 → readBeU32 bytes 4 = some count →
      bytes.length ≠ 8 + count →
      decodeLabels bytes = .error (.sizeMismatch (8 + count) bytes.length)) ∧
    (∀ (bytes : List Nat) (count rows cols : Nat),
      readBeU32 bytes 0 = some 0x803 → readBeU32 bytes 4 = some count →
      readBeU32 bytes 8 = some rows → readBeU32 bytes 12 = some cols →
      bytes.length ≠ 16 + count * (rows * cols % 4294967296) →
      decodeImages bytes =
        .error (.sizeMismatch (16 + count * (rows * cols % 4294967296)) bytes.length)) :=
  ⟨decodeLabels_sizeMismatch, decodeImages_sizeMismatch⟩

/-- Witness for C3: the spec's example label file truncated by one byte
(losing label `9`) and extended by one byte both yield `SizeMismatch`
with the expected size 10, and the analogous image file truncated by one
byte yields `SizeMismatch` with expected size 24. -/
theorem C3_witness :
    decodeLabels [0, 0, 8, 1, 0, 0, 0, 2, 5] = .error (.sizeMismatch 10 9) ∧
    decodeLabels [0, 0, 8, 1, 0, 0, 0, 2, 5, 9, 7] = .error (.sizeMismatch 10 11) ∧
    decodeImages [0, 0, 8, 3, 0, 0, 0, 2, 0, 0, 0, 2, 0, 0, 0, 2,
      1, 2, 3, 4, 5, 6, 7] = .error (.sizeMismatch 24 23) :=
  ⟨C3_size_mismatch.1 _ 2 (by decide) (by decide) (by decide),
   C3_size_mismatch.1 _ 2 (by decide) (by decide) (by decide),
   C3_size_mismatch.2 _ 2 2 2 (by decide) (by decide) (by decide) (by decide) (by decide)⟩

theorem ImageNew_eq_some_iff {T : Type} {w h : Nat} {d : List T} {img : Image T} :
    ImageNew T w h d = some img ↔
      d.length = w * h % 4294967296 ∧ img = ⟨w, h, d⟩ := by
  simp only [ImageNew]
  by_cases hc : w * h % 4294967296 = d.length
  · simp [if_pos hc, hc.symm, eq_comm]
  · rw [if_neg hc]
    exact ⟨(fun hx => by cases hx), (fun ⟨he, _⟩ => absurd he.symm hc)⟩

theorem ImageNew_eq_none_iff {T : Type} {w h : Nat} {d : List T} :
    ImageNew T w h d = none ↔ d.length ≠ w * h % 4294967296 := by
  simp only [ImageNew]
  by_cases hc : w * h % 4294967296 = d.length
  · simp [if_pos hc, hc.symm]
  · rw [if_neg hc]
    exact iff_of_true rfl (fun he => hc he.symm)

/-! ### C7: the Image shape invariant -/

/-- Counterexample to C7 as stated: `width * height` in `Image::new` is a
`u32` product, so with `width = height = 65536` (`width * height = 2^32`,
wrapping to 0) the empty data vector passes the assertion and an `Image`
exists whose data length differs from the exact product `width * height`.
(This is reachable: a 16-byte image file declaring `count = 1`,
`rows = columns = 65536` decodes to exactly this image.) -/
theorem C7_counterexample :
    ImageNew Nat 65536 65536 [] = some ⟨65536, 65536, []⟩ ∧
    (([] : List Nat).length ≠ 65536 * 65536) := by
  constructor
  · rfl
  · decide

/-- C7 (amended): every constructed `Image` satisfies
`data.len() == (width * height) as u32` — the exact product whenever
`width * height < 2^32` — and any construction whose data length differs
from that checked size fails fast (the assertion, modelled as `none`). -/
theorem C7_image_invariant :
    (∀ (w h : Nat) (d : List Nat) (img : Image Nat),
      ImageNew Nat w h d = some img →
      img.width = w ∧ img.height = h ∧ img.data = d ∧
        img.data.length = w * h % 4294967296) ∧
    (∀ (w h : Nat) (d : List Nat),
      d.length ≠ w * h % 4294967296 → ImageNew Nat w h d = none) ∧
    (∀ (w h : Nat) (d : List Nat) (img : Image Nat), w * h < 4294967296 →
      ImageNew Nat w h d = some img → img.data.length = w * h) := by
  refine ⟨?_, ?_, ?_⟩
  · intro w h d img hnew
    obtain ⟨hlen, himg⟩ := ImageNew_eq_some_iff.mp hnew
    subst himg
    exact ⟨rfl, rfl, rfl, hlen⟩
  · intro w h d hne
    exact ImageNew_eq_none_iff.mpr hne
  · intro w h d img hlt hnew
    obtain ⟨hlen, himg⟩ := ImageNew_eq_some_iff.mp hnew
    subst himg
    simpa [Nat.mod_eq_of_lt hlt] using hlen

/-- Witness for C7 on a 2×3 image with 6 data bytes, and a failing
construction with 5 data bytes. -/
theorem C7_witness :
    ((⟨2, 3, [1, 2, 3, 4, 5, 6]⟩ : Image Nat).width = 2 ∧
     (⟨2, 3, [1, 2, 3, 4, 5, 6]⟩ : Image Nat).height = 3 ∧
     (⟨2, 3, [1, 2, 3, 4, 5, 6]⟩ : Image Nat).data = [1, 2, 3, 4, 5, 6] ∧
     (⟨2, 3, [1, 2, 3, 4, 5, 6]⟩ : Image Nat).data.length = 2 * 3 % 4294967296) ∧
    ImageNew Nat 2 3 [1, 2, 3, 4, 5] = none :=
  ⟨C7_image_invariant.1 2 3 [1, 2, 3, 4, 5, 6] _ rfl,
   C7_image_invariant.2.1 2 3 [1, 2, 3, 4, 5] (by decide)⟩

/-! ### C6: the maximum cell rescales to 255 -/

/-- Counterexample to C6 as stated: at the cell holding the maximum
accumulated value the conversion is `255 * max / max`.  With `max = 0`
(an all-zero composite, e.g. the 2×2 one shown) the division panics
instead of producing 255; and with `max = 16843010` the u32 product
`255 * max` wraps, so the maximum cell renders as 0, not 255. -/
theorem C6_counterexample :
    maxAccum [0, 0, 0, 0] = 0 ∧
    rescale 0 (maxAccum [0, 0, 0, 0]) = none ∧
    rescale 16843010 16843010 = some 0 := by
  refine ⟨rfl, rfl, ?_⟩
  decide

/-- C6 (amended): whenever the maximum accumulated value is nonzero and
`255 * max` does not overflow u32, the cell holding the maximum maps to
exactly intensity 255. -/
theorem C6_rescale_max (max : Nat) (h0 : 0 < max)
    (hov : 255 * max < 4294967296) :
    rescale max max = some 255 := by
  unfold rescale
  rw [if_neg (by omega)]
  rw [Nat.mod_eq_of_lt hov, Nat.mul_div_cancel 255 h0]

/-- Witness for C6 at `max = 7`. -/
theorem C6_witness :
    0 < 7 ∧ 255 * 7 < 4294967296 ∧ rescale 7 7 = some 255 :=
  ⟨by decide, by decide, C6_rescale_max 7 (by decide) (by decide)⟩

/-! ### C10: 32-bit products before widening -/

/-- C10: the geometry products are u32 multiplications that wrap mod
`2^32`.  Concretely: (a) the 16-byte image file declaring `count = 1`,
`rows = columns = 65536` passes the size check (the wrapped product is 0)
and decodes to one 65536×65536 image with no data; (b) a data vector of
the exact length `65536 * 65536 = 2^32` fails the `Image::new` assertion,
whose checked size wrapped to 0; (c) `255 * value` in the rescale
conversion likewise wraps (`value = max = 16843010` renders as 0); and
(d) whenever `width * height < 2^32` the shape invariant agrees with
exact integer arithmetic. -/
theorem C10_u32_wrap :
    decodeImages [0, 0, 8, 3, 0, 0, 0, 1, 0, 1, 0, 0, 0, 1, 0, 0] =
      .ok [⟨65536, 65536, []⟩] ∧
    ImageNew Nat 65536 65536 (List.replicate (65536 * 65536) 0) = none ∧
    rescale 16843010 16843010 = some 0 ∧
    (∀ (w h : Nat) (d : List Nat), w * h < 4294967296 →
      (ImageNew Nat w h d = some ⟨w, h, d⟩ ↔ d.length = w * h)) := by
  refine ⟨rfl, ?_, by decide, ?_⟩
  · rw [ImageNew_eq_none_iff, List.length_replicate]
    decide
  · intro w h d hlt
    rw [ImageNew_eq_some_iff, Nat.mod_eq_of_lt hlt]
    simp

/-- Witness for C10's quantified part at a 2×3 image. -/
theorem C10_witness :
    2 * 3 < 4294967296 ∧
    (ImageNew Nat 2 3 [9, 9, 9, 9, 9, 9] = some ⟨2, 3, [9, 9, 9, 9, 9, 9]⟩ ↔
      ([9, 9, 9, 9, 9, 9] : List Nat).length = 2 * 3) :=
  ⟨by decide, C10_u32_wrap.2.2.2 2 3 [9, 9, 9, 9, 9, 9] (by decide)⟩

/-! ### C1: valid image files -/

/-- The image-reading loop: when `pos + n * isz` bytes are available and
`isz` equals the u32 product `columns * rows`, it yields `n` images, the
`i`-th being width `cols` × height `rows` over the `isz` bytes starting
at offset `pos + i * isz`. -/
theorem readImageLoop_spec (bytes : List Nat) (cols rows isz : Nat)
    (hisz : isz = cols * rows % 4294967296) :
    ∀ (n pos : Nat), pos + n * isz ≤ bytes.length →
    ∃ imgs, readImageLoop bytes cols rows isz pos n = .ok imgs ∧
      imgs.length = n ∧
      ∀ i, i < n → imgs.getD i ⟨0, 0, []⟩ =
        ⟨cols, rows, (bytes.drop (pos + i * isz)).take isz⟩ := by
  intro n
  induction n with
  | zero =>
    intro pos _
    exact ⟨[], rfl, rfl, fun i hi => absurd hi (by omega)⟩
  | succ k ih =>
    intro pos hpos
    have hsm : (k + 1) * isz = k * isz + isz := by
      rw [Nat.add_mul, Nat.one_mul]
    have h1 : pos + isz ≤ bytes.length := by omega
    have hlen : ((bytes.drop pos).take isz).length = isz :=
      length_take_drop bytes pos isz h1
    have hnew : ImageNew Nat cols rows ((bytes.drop pos).take isz) =
        some ⟨cols, rows, (bytes.drop pos).take isz⟩ :=
      ImageNew_eq_some_iff.mpr ⟨by rw [hlen, hisz], rfl⟩
    obtain ⟨rest, hrest, hrlen, hri⟩ := ih (pos + isz) (by omega)
    refine ⟨⟨cols, rows, (bytes.drop pos).take isz⟩ :: rest, ?_, by simp [hrlen], ?_⟩
    · unfold readImageLoop
      rw [if_pos h1, hnew, hrest]
    · intro i hi
      cases i with
      | zero => simp
      | succ j =>
        have := hri j (by omega)
        simp only [List.getD_cons_succ, this]
        have harith : pos + isz + j * isz = pos + (j + 1) * isz := by
          rw [Nat.add_mul, Nat.one_mul]
          omega
        rw [harith]

/-- C1 (amended): for every valid image file — magic `0x803`, header
fields `count`, `rows`, `columns` with `rows * columns < 2^32`, and
length exactly `16 + count * rows * columns` — `decode_images` returns
`count` images, each of width `columns` and height `rows` (not
transposed), and pixel `(x, y)` of image `i` is byte
`16 + i * rows * columns + y * columns + x` of the file. -/
theorem C1_decodeImages_valid (bytes : List Nat) (count rows cols : Nat)
    (hm : readBeU32 bytes 0 = some 0x803)
    (hc : readBeU32 bytes 4 = some count)
    (hr : readBeU32 bytes 8 = some rows)
    (hl : readBeU32 bytes 12 = some cols)
    (hnw : rows * cols < 4294967296)
    (hlen : bytes.length = 16 + count * (rows * cols)) :
    ∃ imgs, decodeImages bytes = .ok imgs ∧ imgs.length = count ∧
      ∀ i, i < count →
        (imgs.getD i ⟨0, 0, []⟩).width = cols ∧
        (imgs.getD i ⟨0, 0, []⟩).height = rows ∧
        ∀ x y, x < cols → y < rows →
          (imgs.getD i ⟨0, 0, []⟩).data.getD (y * cols + x) 0 =
            bytes.getD (16 + i * (rows * cols) + (y * cols + x)) 0 := by
  have hmod : rows * cols % 4294967296 = rows * cols := Nat.mod_eq_of_lt hnw
  have hisz : cols * rows % 4294967296 = rows * cols := by
    rw [Nat.mul_comm]
    exact hmod
  obtain ⟨imgs, hloop, hilen, hid⟩ :=
    readImageLoop_spec bytes cols rows (cols * rows % 4294967296) rfl count 16
      (by rw [hisz]; omega)
  refine ⟨imgs, ?_, hilen, ?_⟩
  · simp only [decodeImages, hm, hc, hr, hl]
    rw [if_neg (by decide)]
    rw [if_neg (by rw [hmod]; omega)]
    exact hloop
  · intro i hi
    rw [hid i hi]
    refine ⟨rfl, rfl, ?_⟩
    intro x y hx hy
    have hpix : y * cols + x < rows * cols := by
      have h1 : y * cols + x < (y + 1) * cols := by
        rw [Nat.add_mul, Nat.one_mul]
        omega
      have h2 : (y + 1) * cols ≤ rows * cols := Nat.mul_le_mul_right cols (by omega)
      omega
    have hup : (i + 1) * (rows * cols) ≤ count * (rows * cols) :=
      Nat.mul_le_mul_right _ (by omega)
    rw [hisz]
    exact getD_take_drop bytes (16 + i * (rows * cols)) (rows * cols) (y * cols + x)
      hpix (by rw [Nat.add_mul, Nat.one_mul] at hup; omega)

/-- Witness for C1 on the spec's example: two 2×2 images. -/
theorem C1_witness :
    ∃ imgs,
      decodeImages [0, 0, 8, 3, 0, 0, 0, 2, 0, 0, 0, 2, 0, 0, 0, 2,
        1, 2, 3, 4, 5, 6, 7, 8] = .ok imgs ∧ imgs.length = 2 ∧
      ∀ i, i < 2 →
        (imgs.getD i ⟨0, 0, []⟩).width = 2 ∧
        (imgs.getD i ⟨0, 0, []⟩).height = 2 ∧
        ∀ x y, x < 2 → y < 2 →
          (imgs.getD i ⟨0, 0, []⟩).data.getD (y * 2 + x) 0 =
            List.getD [0, 0, 8, 3, 0, 0, 0, 2, 0, 0, 0, 2, 0, 0, 0, 2,
              1, 2, 3, 4, 5, 6, 7, 8] (16 + i * (2 * 2) + (y * 2 + x)) 0 :=
  C1_decodeImages_valid _ 2 2 2 (by decide) (by decide) (by decide) (by decide)
    (by decide) (by decide)

/-- Counterexample to C1 as stated: with `rows = columns = 65536` the u32
product `rows * columns` wraps to 0, so the file of exact length
`16 + 1 * 65536 * 65536` — valid in the claim's sense (magic `0x803`,
header count 1, length exactly `16 + count * rows * columns`) — is
*rejected* with `SizeMismatch` (the code expects the wrapped size 16)
instead of decoding to one image. -/
theorem C1_counterexample :
    readBeU32 wrapImageFile 0 = some 0x803 ∧
    readBeU32 wrapImageFile 4 = some 1 ∧
    readBeU32 wrapImageFile 8 = some 65536 ∧
    readBeU32 wrapImageFile 12 = some 65536 ∧
    wrapImageFile.length = 16 + 1 * (65536 * 65536) ∧
    decodeImages wrapImageFile = .error (.sizeMismatch 16 4294967312) := by
  have hLen : wrapImageFile.length = 4294967312 := by
    unfold wrapImageFile
    rw [List.length_append, List.length_replicate]
    rfl
  have h0 : readBeU32 wrapImageFile 0 = some 0x803 := by
    unfold wrapImageFile
    rw [readBeU32_append _ _ _ (by decide)]
    rfl
  have h4 : readBeU32 wrapImageFile 4 = some 1 := by
    unfold wrapImageFile
    rw [readBeU32_append _ _ _ (by decide)]
    rfl
  have h8 : readBeU32 wrapImageFile 8 = some 65536 := by
    unfold wrapImageFile
    rw [readBeU32_append _ _ _ (by decide)]
    rfl
  have h12 : readBeU32 wrapImageFile 12 = some 65536 := by
    unfold wrapImageFile
    rw [readBeU32_append _ _ _ (by decide)]
    rfl
  refine ⟨h0, h4, h8, h12, by rw [hLen], ?_⟩
  have hmis := decodeImages_sizeMismatch wrapImageFile 1 65536 65536 h0 h4 h8 h12
    (by rw [hLen]; decide)
  rw [hLen] at hmis
  norm_num at hmis
  exact hmis

/-! ### Helper lemmas on the aggregator -/

theorem getD_set (d : List Nat) (i j a : Nat) :
    (d.set i a).getD j 0 = if i = j ∧ i < d.length then a else d.getD j 0 := by
  rw [List.getD_eq_getD_get?, List.getD_eq_getD_get?, List.get?_eq_getElem?,
    List.get?_eq_getElem?, List.getElem?_set]
  by_cases hij : i = j
  · subst hij
    by_cases hlt : i < d.length
    · simp [hlt]
    · have : d[i]? = none := List.getElem?_eq_none (by omega)
      simp [hlt, this]
  · simp [hij]

theorem sumInto_aux_length (s t : List Nat) : ∀ n : Nat,
    ((List.range n).foldl
      (fun d p => d.set p ((d.getD p 0 + t.getD p 0) % 4294967296)) s).length =
      s.length := by
  intro n
  induction n with
  | zero => rfl
  | succ k ih =>
    rw [List.range_succ, List.foldl_append, List.foldl_cons, List.foldl_nil,
      List.length_set]
    exact ih

theorem sumInto_aux_getD (s t : List Nat) : ∀ (n p : Nat),
    ((List.range n).foldl
      (fun d p => d.set p ((d.getD p 0 + t.getD p 0) % 4294967296)) s).getD p 0 =
      if p < n ∧ p < s.length then (s.getD p 0 + t.getD p 0) % 4294967296
      else s.getD p 0 := by
  intro n
  induction n with
  | zero =>
    intro p
    rw [if_neg (by omega)]
    rfl
  | succ k ih =>
    intro p
    rw [List.range_succ, List.foldl_append, List.foldl_cons, List.foldl_nil, getD_set]
    by_cases hpk : k = p
    · subst hpk
      rw [sumInto_aux_length]
      by_cases hlt : k < s.length
      · rw [if_pos ⟨rfl, hlt⟩, if_pos ⟨by omega, hlt⟩, ih k]
        rw [if_neg (by omega)]
      · rw [if_neg (by omega), if_neg (by omega), ih k, if_neg (by omega)]
    · rw [if_neg (by omega), ih p]
      by_cases h1 : p < k ∧ p < s.length
      · rw [if_pos h1, if_pos ⟨by omega, h1.2⟩]
      · rw [if_neg h1, if_neg (by omega)]

theorem sumInto_length (s t : List Nat) : (sumInto s t).length = s.length :=
  sumInto_aux_length s t t.length

theorem sumInto_getD (s t : List Nat) (p : Nat) :
    (sumInto s t).getD p 0 =
      if p < t.length ∧ p < s.length then (s.getD p 0 + t.getD p 0) % 4294967296
      else s.getD p 0 :=
  sumInto_aux_getD s t t.length p

theorem aggContains_iff (k : Nat) (m : List (Nat × Image Nat)) :
    aggContains k m = true ↔ k ∈ m.map Prod.fst := by
  simp [aggContains, List.any_eq_true, List.mem_map, beq_iff_eq]

theorem mem_aggInsert (k : Nat) (v : Image Nat) (e : Nat × Image Nat) :
    ∀ m : List (Nat × Image Nat), e ∈ aggInsert k v m ↔ e = (k, v) ∨ e ∈ m := by
  intro m
  induction m with
  | nil => simp [aggInsert]
  | cons hd tl ih =>
    obtain ⟨k', v'⟩ := hd
    unfold aggInsert
    by_cases hk : k < k'
    · rw [if_pos hk]
      simp [List.mem_cons, or_assoc]
    · rw [if_neg hk]
      simp only [List.mem_cons, ih]
      tauto

theorem keys_aggInsert (k l : Nat) (v : Image Nat) (m : List (Nat × Image Nat)) :
    l ∈ (aggInsert k v m).map Prod.fst ↔ l = k ∨ l ∈ m.map Prod.fst := by
  simp only [List.mem_map]
  constructor
  · rintro ⟨e, he, hl⟩
    rcases (mem_aggInsert k v e m).mp he with he | he
    · subst he
      exact Or.inl hl.symm
    · exact Or.inr ⟨e, he, hl⟩
  · rintro (hl | ⟨e, he, hl⟩)
    · exact ⟨(k, v), (mem_aggInsert k v _ m).mpr (Or.inl rfl), hl.symm⟩
    · exact ⟨e, (mem_aggInsert k v e m).mpr (Or.inr he), hl⟩

theorem sorted_aggInsert (k : Nat) (v : Image Nat) :
    ∀ m : List (Nat × Image Nat), ((m.map Prod.fst).Sorted (· < ·)) →
    k ∉ m.map Prod.fst → ((aggInsert k v m).map Prod.fst).Sorted (· < ·) := by
  intro m
  induction m with
  | nil =>
    intro _ _
    simp [aggInsert, List.Sorted]
  | cons hd tl ih =>
    obtain ⟨k', v'⟩ := hd
    intro hs hk
    rw [List.map_cons, List.sorted_cons] at hs
    have hkne : k ≠ k' := fun he => hk (by simp [he])
    have hktl : k ∉ tl.map Prod.fst := fun hm => hk (by simp [hm])
    unfold aggInsert
    by_cases hlt : k < k'
    · rw [if_pos hlt]
      rw [List.map_cons, List.sorted_cons]
      refine ⟨?_, by rw [List.map_cons, List.sorted_cons]; exact hs⟩
      intro b hb
      rw [List.map_cons, List.mem_cons] at hb
      rcases hb with hb | hb
      · omega
      · exact lt_trans hlt (hs.1 b hb)
    · rw [if_neg hlt]
      rw [List.map_cons, List.sorted_cons]
      refine ⟨?_, ih hs.2 hktl⟩
      intro b hb
      rcases (keys_aggInsert k b v tl).mp hb with hb | hb
      · subst hb
        omega
      · exact hs.1 b hb

theorem keys_aggUpdate (k : Nat) (f : Image Nat → Image Nat) :
    ∀ m : List (Nat × Image Nat), (aggUpdate k f m).map Prod.fst = m.map Prod.fst := by
  intro m
  induction m with
  | nil => rfl
  | cons hd tl ih =>
    obtain ⟨k', v'⟩ := hd
    unfold aggUpdate
    by_cases hk : k' = k
    · rw [if_pos hk]
      simp
    · rw [if_neg hk]
      simp [ih]

theorem aggUpdate_forall {P : Nat × Image Nat → Prop} {k : Nat}
    {f : Image Nat → Image Nat} :
    ∀ {m : List (Nat × Image Nat)}, ((m.map Prod.fst).Nodup) →
    (∀ e ∈ m, e.1 ≠ k → P e) → (∀ v, (k, v) ∈ m → P (k, f v)) →
    ∀ e ∈ aggUpdate k f m, P e := by
  intro m
  induction m with
  | nil =>
    intro _ _ _ e he
    simp [aggUpdate] at he
  | cons hd tl ih =>
    obtain ⟨k', v'⟩ := hd
    intro hnd hne hupd e he
    rw [List.map_cons, List.nodup_cons] at hnd
    unfold aggUpdate at he
    by_cases hk : k' = k
    · rw [if_pos hk] at he
      subst hk
      rcases List.mem_cons.mp he with he | he
      · subst he
        exact hupd v' (List.mem_cons_self _ _)
      · refine hne e (List.mem_cons_of_mem _ he) ?_
        intro h1
        exact hnd.1 (h1 ▸ List.mem_map.mpr ⟨e, he, rfl⟩)
    · rw [if_neg hk] at he
      rcases List.mem_cons.mp he with he | he
      · subst he
        exact hne (k', v') (List.mem_cons_self _ _) hk
      · refine ih hnd.2 (fun e' he' hne' => hne e' (List.mem_cons_of_mem _ he') hne')
          (fun v hv => ?_) e he
        exact hupd v (List.mem_cons_of_mem _ hv)

theorem matchedPixels_sum_append (l p : Nat) (xs : List (Nat × Image Nat))
    (li : Nat × Image Nat) :
    (matchedPixels l p (xs ++ [li])).sum =
      (matchedPixels l p xs).sum + if li.1 = l then li.2.data.getD p 0 else 0 := by
  unfold matchedPixels
  rw [List.filter_append, List.map_append, List.sum_append]
  congr 1
  by_cases h : li.1 = l
  · simp [List.filter_cons, h]
  · simp [List.filter_cons, h]

theorem matchedPixels_nil_of_not_mem (l p : Nat) (xs : List (Nat × Image Nat))
    (h : l ∉ xs.map Prod.fst) : matchedPixels l p xs = [] := by
  unfold matchedPixels
  rw [List.filter_eq_nil_iff.mpr, List.map_nil]
  intro a ha
  simp only [beq_iff_eq]
  intro heq
  exact h (List.mem_map.mpr ⟨a, ha, heq⟩)

theorem getD_replicate (n q : Nat) : (List.replicate n (0 : Nat)).getD q 0 = 0 := by
  rw [List.getD_eq_getD_get?, List.get?_eq_getElem?]
  exact List.getElem?_getD_replicate_default_eq 0 n q

/-- One aggregation step preserves the loop invariant. -/
theorem aggStep_inv (w h : Nat) (processed m : List (Nat × Image Nat))
    (li : Nat × Image Nat) (hgood : GoodImage w h li.2)
    (hinv : AggInv w h processed m) :
    ∃ m', aggStep m li = some m' ∧ AggInv w h (processed ++ [li]) m' := by
  obtain ⟨l, img⟩ := li
  simp only [GoodImage] at hgood
  obtain ⟨hw, hh, hdl⟩ := hgood
  simp only [AggInv] at hinv
  obtain ⟨hsort, hkeys, hent⟩ := hinv
  by_cases hc : aggContains l m = true
  · refine ⟨aggUpdate l (fun s => ⟨s.width, s.height, sumInto s.data img.data⟩) m,
      by simp [aggStep, hc], ?_⟩
    unfold AggInv
    refine ⟨?_, ?_, ?_⟩
    · rw [keys_aggUpdate]
      exact hsort
    · intro l'
      rw [keys_aggUpdate, List.map_append, List.mem_append]
      constructor
      · intro hm
        exact Or.inl ((hkeys l').mp hm)
      · rintro (hm | hm)
        · exact (hkeys l').mpr hm
        · simp only [List.map_cons, List.map_nil, List.mem_singleton] at hm
          subst hm
          exact (aggContains_iff l' m).mp hc
    · have hnd : (m.map Prod.fst).Nodup := hsort.nodup
      refine aggUpdate_forall hnd ?_ ?_
      · intro e he hne
        obtain ⟨hg, hcell⟩ := hent e he
        refine ⟨hg, ?_⟩
        intro p
        rw [matchedPixels_sum_append, if_neg (fun h2 => hne h2.symm), Nat.add_zero]
        exact hcell p
      · intro v hv
        obtain ⟨hg, hcell⟩ := hent (l, v) hv
        simp only [GoodImage] at hg
        obtain ⟨hvw, hvh, hvl⟩ := hg
        refine ⟨⟨hvw, hvh, by rw [sumInto_length]; exact hvl⟩, ?_⟩
        intro p
        show (sumInto v.data img.data).getD p 0 = _
        rw [sumInto_getD, matchedPixels_sum_append, if_pos rfl]
        by_cases hp : p < img.data.length ∧ p < v.data.length
        · rw [if_pos hp, hcell p, Nat.mod_add_mod]
        · rw [if_neg hp, hcell p]
          have himg0 : img.data.getD p 0 = 0 :=
            List.getD_eq_default _ _ (by rw [hdl]; rw [hdl, hvl] at hp; omega)
          rw [himg0, Nat.add_zero]
  · have hlm : l ∉ m.map Prod.fst := fun hm => hc ((aggContains_iff l m).mpr hm)
    have hlp : l ∉ processed.map Prod.fst := fun hm => hlm ((hkeys l).mpr hm)
    have hz : ImageNew Nat img.width img.height (List.replicate img.data.length 0) =
        some ⟨img.width, img.height, List.replicate img.data.length 0⟩ :=
      ImageNew_eq_some_iff.mpr ⟨by rw [List.length_replicate, hdl, hw, hh], rfl⟩
    refine ⟨aggUpdate l (fun s => ⟨s.width, s.height, sumInto s.data img.data⟩)
      (aggInsert l ⟨img.width, img.height, List.replicate img.data.length 0⟩ m),
      by simp [aggStep, hc, hz], ?_⟩
    unfold AggInv
    have hsorti := sorted_aggInsert l
      ⟨img.width, img.height, List.replicate img.data.length 0⟩ m hsort hlm
    refine ⟨?_, ?_, ?_⟩
    · rw [keys_aggUpdate]
      exact hsorti
    · intro l'
      rw [keys_aggUpdate, keys_aggInsert, List.map_append, List.mem_append]
      constructor
      · rintro (he | he)
        · subst he
          right
          simp
        · exact Or.inl ((hkeys l').mp he)
      · rintro (he | he)
        · exact Or.inr ((hkeys l').mpr he)
        · simp only [List.map_cons, List.map_nil, List.mem_singleton] at he
          subst he
          exact Or.inl rfl
    · have hnd := hsorti.nodup
      refine aggUpdate_forall hnd ?_ ?_
      · intro e he hne
        rcases (mem_aggInsert l _ e m).mp he with he | he
        · subst he
          exact absurd rfl hne
        · obtain ⟨hg, hcell⟩ := hent e he
          refine ⟨hg, ?_⟩
          intro p
          rw [matchedPixels_sum_append, if_neg (fun h2 => hne h2.symm), Nat.add_zero]
          exact hcell p
      · intro v hv
        have hvz : v = ⟨img.width, img.height, List.replicate img.data.length 0⟩ := by
          rcases (mem_aggInsert l _ (l, v) m).mp hv with he | he
          · simpa using congrArg Prod.snd he
          · exact absurd (List.mem_map.mpr ⟨(l, v), he, rfl⟩) hlm
        subst hvz
        refine ⟨⟨hw, hh, by rw [sumInto_length, List.length_replicate, hdl]⟩, ?_⟩
        intro p
        show (sumInto (List.replicate img.data.length 0) img.data).getD p 0 = _
        rw [sumInto_getD, matchedPixels_sum_append, if_pos rfl,
          matchedPixels_nil_of_not_mem l p processed hlp]
        simp only [List.sum_nil, Nat.zero_add]
        by_cases hp : p < img.data.length ∧ p < (List.replicate img.data.length (0 : Nat)).length
        · rw [if_pos hp, getD_replicate, Nat.zero_add]
        · rw [if_neg hp, getD_replicate]
          have himg0 : img.data.getD p 0 = 0 :=
            List.getD_eq_default _ _ (by rw [List.length_replicate] at hp; omega)
          rw [himg0, Nat.zero_mod]

/-- The aggregation loop carries the invariant over any suffix. -/
theorem aggregate_loop_inv (w h : Nat) :
    ∀ (rest processed m : List (Nat × Image Nat)),
    (∀ li ∈ rest, GoodImage w h li.2) → AggInv w h processed m →
    ∃ m', rest.foldl (fun om li => om.bind (fun m => aggStep m li)) (some m) = some m' ∧
      AggInv w h (processed ++ rest) m' := by
  intro rest
  induction rest with
  | nil =>
    intro processed m _ hinv
    exact ⟨m, rfl, by simpa using hinv⟩
  | cons hd tl ih =>
    intro processed m hgood hinv
    obtain ⟨m1, hm1, hinv1⟩ :=
      aggStep_inv w h processed m hd (hgood hd (List.mem_cons_self _ _)) hinv
    obtain ⟨m', hm', hinv'⟩ :=
      ih (processed ++ [hd]) m1 (fun li hli => hgood li (List.mem_cons_of_mem _ hli)) hinv1
    refine ⟨m', ?_, by simpa [List.append_assoc] using hinv'⟩
    rw [List.foldl_cons]
    simp only [Option.some_bind, hm1]
    exact hm'

/-- The full aggregation establishes the invariant for the whole list. -/
theorem aggregate_spec (w h : Nat) (pairs : List (Nat × Image Nat))
    (hgood : ∀ li ∈ pairs, GoodImage w h li.2) :
    ∃ m, aggregate pairs = some m ∧ AggInv w h pairs m := by
  have hbase : AggInv w h [] [] := by
    unfold AggInv
    refine ⟨List.sorted_nil, fun l => by simp, fun e he => absurd he (List.not_mem_nil e)⟩
  obtain ⟨m, hm, hinv⟩ := aggregate_loop_inv w h pairs [] [] hgood hbase
  exact ⟨m, hm, by simpa using hinv⟩

theorem maxAccum_aux (data : List Nat) :
    (∀ x ∈ data, x = 0) → ∀ a, data.foldl Nat.max a = a := by
  induction data with
  | nil => intro _ a; rfl
  | cons x tl ih =>
    intro hz a
    rw [List.foldl_cons, hz x (List.mem_cons_self _ _)]
    have hmax : Nat.max a 0 = a := by simp [Nat.max_def]
    rw [hmax]
    exact ih (fun y hy => hz y (List.mem_cons_of_mem _ hy)) a

theorem maxAccum_eq_zero (data : List Nat) (hz : ∀ x ∈ data, x = 0) :
    maxAccum data = 0 :=
  maxAccum_aux data hz 0

/-! ### C5: per-label aggregation -/

/-- C5: for index-aligned label and image lists of equal length (all
images of the common decoded shape), the aggregation succeeds and yields,
in ascending label order (the sorted `BTreeMap` iteration order), one
composite per distinct occurring label, of the images' shape, each cell
holding the u32-accumulated sum of that cell over all images carrying the
label. -/
theorem C5_aggregate (labels : List Nat) (images : List (Image Nat)) (w h : Nat)
    (hlen : labels.length = images.length)
    (hgood : ∀ img ∈ images, img.width = w ∧ img.height = h ∧
      img.data.length = w * h % 4294967296) :
    ∃ m, aggregate (labels.zip images) = some m ∧
      ((m.map Prod.fst).Sorted (· < ·)) ∧
      (∀ l, l ∈ m.map Prod.fst ↔ l ∈ labels) ∧
      (∀ e ∈ m, e.2.width = w ∧ e.2.height = h ∧
        e.2.data.length = w * h % 4294967296 ∧
        ∀ p, e.2.data.getD p 0 =
          (matchedPixels e.1 p (labels.zip images)).sum % 4294967296) := by
  have hg : ∀ li ∈ labels.zip images, GoodImage w h li.2 := by
    intro li hli
    have hmem := List.of_mem_zip hli
    unfold GoodImage
    exact hgood li.2 hmem.2
  obtain ⟨m, hm, hinv⟩ := aggregate_spec w h (labels.zip images) hg
  simp only [AggInv] at hinv
  obtain ⟨hs, hk, he⟩ := hinv
  refine ⟨m, hm, hs, ?_, ?_⟩
  · intro l
    rw [hk l, List.map_fst_zip labels images (le_of_eq hlen)]
  · intro e hep
    obtain ⟨hg2, hc⟩ := he e hep
    simp only [GoodImage] at hg2
    exact ⟨hg2.1, hg2.2.1, hg2.2.2, hc⟩

/-- Witness for C5: two 2×1 images both labeled 3 (the spec's aggregation
example shape): one composite, for label 3, holding the element-wise sums. -/
theorem C5_witness :
    ∃ m, aggregate ([3, 3].zip [⟨2, 1, [1, 2]⟩, ⟨2, 1, [3, 4]⟩]) = some m ∧
      ((m.map Prod.fst).Sorted (· < ·)) ∧
      (∀ l, l ∈ m.map Prod.fst ↔ l ∈ [3, 3]) ∧
      (∀ e ∈ m, e.2.width = 2 ∧ e.2.height = 1 ∧
        e.2.data.length = 2 * 1 % 4294967296 ∧
        ∀ p, e.2.data.getD p 0 =
          (matchedPixels e.1 p ([3, 3].zip [⟨2, 1, [1, 2]⟩, ⟨2, 1, [3, 4]⟩])).sum %
            4294967296) :=
  C5_aggregate [3, 3] [⟨2, 1, [1, 2]⟩, ⟨2, 1, [3, 4]⟩] 2 1 (by decide) (by decide)

/-! ### C9: all-zero labels make the rescale divide by zero -/

/-- C9: if label `l` occurs and every image carrying `l` is all-zero, the
aggregation produces a composite for `l` whose maximum accumulated value
is 0, and the rescale conversion divides by zero on every cell of that
composite (modelled as `none`); conversely the conversion is defined
whenever the maximum is nonzero, so the rescale is well-defined exactly
under the unstated precondition that each occurring label has a nonzero
pixel somewhere. -/
theorem C9_zero_label_divzero (labels : List Nat) (images : List (Image Nat))
    (w h l : Nat)
    (hlen : labels.length = images.length)
    (hgood : ∀ img ∈ images, img.width = w ∧ img.height = h ∧
      img.data.length = w * h % 4294967296)
    (hl : l ∈ labels)
    (hzero : ∀ li ∈ labels.zip images, li.1 = l → ∀ p, li.2.data.getD p 0 = 0) :
    ∃ m comp, aggregate (labels.zip images) = some m ∧ (l, comp) ∈ m ∧
      maxAccum comp.data = 0 ∧
      (∀ v, rescale v (maxAccum comp.data) = none) ∧
      (∀ v mv, 0 < mv → (rescale v mv).isSome = true) := by
  have hg : ∀ li ∈ labels.zip images, GoodImage w h li.2 := by
    intro li hli
    have hmem := List.of_mem_zip hli
    unfold GoodImage
    exact hgood li.2 hmem.2
  obtain ⟨m, hm, hinv⟩ := aggregate_spec w h (labels.zip images) hg
  simp only [AggInv] at hinv
  obtain ⟨hs, hk, he⟩ := hinv
  have hlk : l ∈ m.map Prod.fst := by
    rw [hk l, List.map_fst_zip labels images (le_of_eq hlen)]
    exact hl
  obtain ⟨e, hem, hefst⟩ := List.mem_map.mp hlk
  obtain ⟨l', comp⟩ := e
  cases hefst
  obtain ⟨_, hcell⟩ := he (l', comp) hem
  have hsum0 : ∀ p, (matchedPixels l' p (labels.zip images)).sum = 0 := by
    intro p
    apply List.sum_eq_zero
    intro x hx
    unfold matchedPixels at hx
    obtain ⟨li, hli, hxe⟩ := List.mem_map.mp hx
    have hmf := List.mem_filter.mp hli
    have : li.1 = l' := by simpa using hmf.2
    rw [← hxe]
    exact hzero li hmf.1 this p
  have hz : ∀ x ∈ comp.data, x = 0 := by
    intro x hx
    obtain ⟨i, hi, hxe⟩ := List.mem_iff_getElem.mp hx
    have := hcell i
    rw [hsum0 i, Nat.zero_mod] at this
    rw [← hxe, ← List.getD_eq_getElem comp.data 0 hi]
    exact this
  have hmax : maxAccum comp.data = 0 := maxAccum_eq_zero comp.data hz
  refine ⟨m, comp, hm, hem, hmax, ?_, ?_⟩
  · intro v
    rw [hmax]
    rfl
  · intro v mv hmv
    unfold rescale
    rw [if_neg (by omega)]
    rfl

/-- Witness for C9: a single all-zero 2×1 image labeled 3. -/
theorem C9_witness :
    ∃ m comp, aggregate ([3].zip [⟨2, 1, [0, 0]⟩]) = some m ∧
      ((3 : Nat), comp) ∈ m ∧ maxAccum comp.data = 0 ∧
      (∀ v, rescale v (maxAccum comp.data) = none) ∧
      (∀ v mv, 0 < mv → (rescale v mv).isSome = true) :=
  C9_zero_label_divzero [3] [⟨2, 1, [0, 0]⟩] 2 1 3 (by decide) (by decide)
    (by decide)
    (by
      intro li hli heq p
      simp only [List.zip, List.zipWith, List.mem_singleton] at hli
      subst hli
      rcases p with _ | _ | p <;> rfl)
